import Mathlib

/-!
Verification development for the one-billion-row-challenge engine
(static-sharding variant `v15.rs`, shared with the pipelined variant `v16.rs`).

The Rust sources are shallowly embedded: byte slices become `List Nat`
(each entry the value of one `u8`), `u64` arithmetic is `Nat` arithmetic
taken modulo `2 ^ 64` where overflow matters, fallible operations return
`Option`/`Except`, and a Rust panic is the explicit error value
`RunErr.panic`.  Loops whose termination is not structural carry an
explicit fuel argument; exhausting the fuel yields `RunErr.fuelOut`,
which distinguishes modelling-fuel exhaustion (the source would keep
looping) from a genuine source panic.
-/

namespace OneBrc

/-- Error outcomes of an embedded computation: `panic` models a Rust panic
(out-of-bounds slice index, `unwrap` of `None`, …); `fuelOut` marks
exhaustion of the modelling fuel, i.e. the source loop would not have
terminated within the supplied bound. -/
inductive RunErr where
  | panic
  | fuelOut
deriving DecidableEq, Repr

/-- `StationData` from `v15.rs` / `v16.rs`: per-bucket running statistics.
`min_temp`/`max_temp`/`total` are the `i32` fields (embedded as `Int`),
`count` the `u32` observation counter (embedded as `Nat`), `name` the
optionally captured station-name bytes. -/
structure StationData where
  min_temp : Int
  max_temp : Int
  total : Int
  count : Nat
  name : Option (List Nat)
deriving DecidableEq, Repr

/-- `StationData::new()`: `min_temp = i32::MAX`, `max_temp = i32::MIN`,
zero total and count, no name. -/
def StationData.new : StationData :=
  { min_temp := 2147483647, max_temp := -2147483648, total := 0, count := 0, name := none }

/-- `StationData::add_temp`: fold one observation into the record,
capturing the name on first write. -/
def StationData.add_temp (s : StationData) (temp : Int) (name : List Nat) : StationData :=
  { min_temp := min s.min_temp temp
    max_temp := max s.max_temp temp
    total := s.total + temp
    count := s.count + 1
    name := if s.name.isNone then some name else s.name }

/-- `StationData::merge_with`: fold another record into this one,
keeping this record's name if already set. -/
def StationData.merge_with (s : StationData) (other : StationData) : StationData :=
  { min_temp := min s.min_temp other.min_temp
    max_temp := max s.max_temp other.max_temp
    total := s.total + other.total
    count := s.count + other.count
    name := if s.name.isNone then other.name else s.name }

/-- First index of `target` in a byte list (`None` when absent). -/
def firstIdxOf (target : Nat) : List Nat → Option Nat
  | [] => none
  | c :: rest => if c = target then some 0 else (firstIdxOf target rest).map (· + 1)

/-- Models the external `memchr` crate used by `find_char`'s scalar
fallback; its documented contract is the index of the first occurrence
of `target` in `buf`, or `None`. -/
def memchr (target : Nat) (buf : List Nat) : Option Nat :=
  firstIdxOf target buf

/-- The bitmask produced by `v.simd_eq(Simd::splat(target)).to_bitmask()`
in `first_match_in_u8x16`: bit `i` is set iff lane `i` equals `target`. -/
def to_bitmask (v : List Nat) (target : Nat) : Nat :=
  match v with
  | [] => 0
  | c :: rest => (if c = target then 1 else 0) + 2 * to_bitmask rest target

/-- Fueled count of trailing zero bits; with fuel 64 this is
`u64::trailing_zeros` (which returns 64 on input 0). -/
def ctzAux : Nat → Nat → Nat
  | 0, _ => 0
  | fuel + 1, n => if n % 2 = 1 then 0 else ctzAux fuel (n / 2) + 1

/-- `u64::trailing_zeros`. -/
def trailing_zeros (n : Nat) : Nat := ctzAux 64 n

/-- `first_match_in_u8x16` from `v15.rs`: bitmask of lane matches, then
the index of the lowest set bit, `None` when the mask is zero. -/
def first_match_in_u8x16 (v : List Nat) (target : Nat) : Option Nat :=
  let bits := to_bitmask v target
  if bits = 0 then none else some (trailing_zeros bits)

/-- `find_char` from `v15.rs`: on windows of at least 48 bytes, test the
three 16-byte lanes `buf[..16]`, `buf[16..32]`, `buf[32..48]`; otherwise
fall back to `memchr`. -/
def find_char (buf : List Nat) (target : Nat) : Option Nat :=
  if 48 ≤ buf.length then
    match first_match_in_u8x16 (buf.take 16) target with
    | some idx => some idx
    | none =>
      match first_match_in_u8x16 ((buf.drop 16).take 16) target with
      | some idx => some (16 + idx)
      | none =>
        match first_match_in_u8x16 ((buf.drop 32).take 16) target with
        | some idx => some (32 + idx)
        | none => none
  else memchr target buf

/-- `u8::is_ascii_digit`. -/
def isAsciiDigit (c : Nat) : Bool := 48 ≤ c && c ≤ 57

/-- The digit-accumulation loop of `parse_temp`: left fold that adds
ASCII digits into the magnitude and skips every other byte. -/
def accumDigits (line : List Nat) : Int :=
  line.foldl (fun t c => if isAsciiDigit c then t * 10 + ((c : Int) - 48) else t) 0

/-- `parse_temp` from `v15.rs`: accumulate the digits, then negate if the
first byte is `b'-'`.  Indexing `line[0]` of an empty slice is a panic,
modelled as `none`. -/
def parse_temp (line : List Nat) : Option Int :=
  match line with
  | [] => none
  | c0 :: _ => some (if c0 = 45 then -accumDigits line else accumDigits line)

/-- Little-endian `u64::from_le_bytes`; each entry is reduced to its
`u8` value. -/
def leBytes8 (bs : List Nat) : Nat :=
  bs.foldr (fun b acc => b % 256 + 256 * acc) 0

/-- `get_u64_key` from `v15.rs`: fingerprint from the first three bytes,
last three bytes, and the length (as `u8`).  For names shorter than 3
bytes the index `bytes.len() - 3` underflows and the access panics,
modelled as `none`. -/
def get_u64_key (bytes : List Nat) : Option Nat :=
  if 3 ≤ bytes.length then
    some (leBytes8 [bytes.getD 0 0, bytes.getD 1 0, bytes.getD 2 0,
      bytes.getD (bytes.length - 3) 0, bytes.getD (bytes.length - 2) 0,
      bytes.getD (bytes.length - 1) 0, bytes.length % 256, 0])
  else none

/-- `mix64` from `v15.rs`: xor-shift / multiply finalizer on `u64`,
wrapping multiplications taken modulo `2 ^ 64`. -/
def mix64 (x : Nat) : Nat :=
  let x1 := (x ^^^ (x >>> 30)) % 18446744073709551616
  let x2 := (x1 * 13787848793156543929) % 18446744073709551616
  let x3 := (x2 ^^^ (x2 >>> 27)) % 18446744073709551616
  let x4 := (x3 * 10723151780598845931) % 18446744073709551616
  (x4 ^^^ (x4 >>> 31)) % 18446744073709551616

/-- Backing-array length of `CustomHashMap::new()` (`32_768`). -/
def tableSize : Nat := 32768

/-- The bucket index computed by `CustomHashMap::get_mut`:
`mix64(get_u64_key(key)) as usize & (32_768 - 1)`; `none` when the
fingerprint construction panics. -/
def get_index (key : List Nat) : Option Nat :=
  (get_u64_key key).map (fun k => mix64 k &&& (32768 - 1))

/-- The aggregation table, bucket index to record.  `CustomHashMap`'s
backing vector has length `tableSize`; only indices below `tableSize`
are ever produced by `get_index`. -/
def HMap := Nat → StationData

/-- `CustomHashMap::new()`: every bucket is `StationData::new()`. -/
def HMap.empty : HMap := fun _ => StationData.new

/-- One absorption step `map.get_mut(name).add_temp(temp, name)`;
`none` models the panic of the fingerprint construction on names
shorter than 3 bytes. -/
def mapAdd (m : HMap) (name : List Nat) (temp : Int) : Option HMap :=
  match get_index name with
  | none => none
  | some i => some (fun j => if j = i then (m i).add_temp temp name else m j)

/-- One absorbed record: name bytes and parsed fixed-point value. -/
abbrev RecEntry := List Nat × Int

/-- `BUF_SIZE` from `scan_file_segment` (16 MiB). -/
def BUF_SIZE : Nat := 16777216

/-- The inner line-reading loop of `scan_file_segment`: starting at
`lineStart`, repeatedly take `slice = buf[line_start..]`, locate the
next `\n` and the next `;` with `find_char`, absorb the record, and
advance; exit with the final `line_start` when no newline is found.
The returned list logs every absorbed `(name, temp)` record in order
(a ghost observation of the `map.get_mut(..).add_temp(..)` calls). -/
def scanLines : Nat → HMap → List RecEntry → List Nat → Nat →
    Except RunErr (HMap × List RecEntry × Nat)
  | 0, _, _, _, _ => .error .fuelOut
  | fuel + 1, m, log, buf, lineStart =>
    let slice := buf.drop lineStart
    match find_char slice 10 with
    | none => .ok (m, log, lineStart)
    | some newlinePos =>
      match find_char slice 59 with
      | none => .error .panic
      | some semicolonPos =>
        if semicolonPos + 1 ≤ newlinePos then
          let nameSlice := slice.take semicolonPos
          let tempSlice := (slice.drop (semicolonPos + 1)).take (newlinePos - (semicolonPos + 1))
          match parse_temp tempSlice with
          | none => .error .panic
          | some temp =>
            match mapAdd m nameSlice temp with
            | none => .error .panic
            | some m2 => scanLines fuel m2 (log ++ [(nameSlice, temp)]) buf (lineStart + newlinePos + 1)
        else .error .panic

/-- The outer chunk loop of `scan_file_segment`: read up to `BUF_SIZE`
bytes at `offset` (`read_at` followed by `truncate(bytes_read)` is the
prefix of the remaining file), run the line loop over the whole chunk,
advance `offset` by the consumed amount, and stop once
`offset >= end_pos`.  The inner loop advances `line_start` by at least
one per processed line, so `buf.length + 1` steps of inner fuel always
reach its natural exit. -/
def scanSeg (file : List Nat) : Nat → HMap → List RecEntry → Nat → Nat →
    Except RunErr (HMap × List RecEntry)
  | 0, _, _, _, _ => .error .fuelOut
  | fuel + 1, m, log, offset, endPos =>
    let buf := (file.drop offset).take BUF_SIZE
    match scanLines (buf.length + 1) m log buf 0 with
    | .error e => .error e
    | .ok (m2, log2, lineStart) =>
      let offset2 := offset + lineStart
      if endPos ≤ offset2 then .ok (m2, log2)
      else scanSeg file fuel m2 log2 offset2 endPos

/-- `scan_file_segment` from `v15.rs`, with outer fuel
`end_pos - start_pos + 1`: the loop advances `offset` by at least one
byte per iteration until it passes `end_pos`, so this bound is reached
only if the source loop fails to make progress (i.e. diverges). -/
def scan_file_segment (file : List Nat) (startPos endPos : Nat) :
    Except RunErr (HMap × List RecEntry) :=
  scanSeg file (endPos - startPos + 1) HMap.empty [] startPos endPos

/-- One probe of `find_segment_splits`: `read_exact_at` of a 64-byte
window at `searchStart` (a panic if fewer than 64 bytes remain), then
`buf.iter().position(|c| *c == b'\n')` (`unwrap` panics when the window
holds no newline); on success the boundary is one past the newline. -/
def probe (file : List Nat) (searchStart : Nat) : Except RunErr Nat :=
  if searchStart + 64 ≤ file.length then
    match firstIdxOf 10 ((file.drop searchStart).take 64) with
    | some j => .ok (searchStart + j + 1)
    | none => .error .panic
  else .error .panic

/-- The probe loop of `find_segment_splits`, carrying `prev` and the
remaining probe indices; the trailing `(prev, file_len)` segment is
appended when the indices are exhausted. -/
def splitsAux (file : List Nat) (exp : Nat) : Nat → List Nat → Except RunErr (List (Nat × Nat))
  | prev, [] => .ok [(prev, file.length)]
  | prev, i :: rest =>
    match probe file (i * exp) with
    | .error e => .error e
    | .ok curr =>
      match splitsAux file exp curr rest with
      | .error e => .error e
      | .ok tl => .ok ((prev, curr) :: tl)

/-- `find_segment_splits` from `v15.rs`: probe at `i * (file_len / n)`
for `i = 1 .. n-1`.  `n = 0` makes the source divide by zero (a panic). -/
def find_segment_splits (file : List Nat) (numSegments : Nat) : Except RunErr (List (Nat × Nat)) :=
  if numSegments = 0 then .error .panic
  else splitsAux file (file.length / numSegments) 0 (List.range' 1 (numSegments - 1))

/-- The merge loop of `run` (`v15.rs` lines 45-55, identically
`v16.rs` lines 165-175), expressed per bucket: skip the bucket when the
first table's record there is empty, otherwise fold `merge_with` over
all tables' records at that index starting from `StationData::new()`. -/
def mergeTables (maps : List HMap) : HMap :=
  fun i =>
    if (maps.headD HMap.empty i).count = 0 then StationData.new
    else maps.foldl (fun accum other => accum.merge_with (other i)) StationData.new

/-- Byte-wise lexicographic order on byte lists; Rust's `Ord` for
`String`/`Vec<u8>` used by `parts.sort()`. -/
def bytesLE : List Nat → List Nat → Bool
  | [], _ => true
  | _ :: _, [] => false
  | x :: xs, y :: ys => decide (x < y) || (decide (x = y) && bytesLE xs ys)

/-- Low bound of the first continuation byte of a 3-byte sequence. -/
def utf8Cont2Lo (b : Nat) : Nat := if b = 224 then 160 else 128

/-- High bound of the first continuation byte of a 3-byte sequence. -/
def utf8Cont2Hi (b : Nat) : Nat := if b = 237 then 159 else 191

/-- Low bound of the first continuation byte of a 4-byte sequence. -/
def utf8Cont3Lo (b : Nat) : Nat := if b = 240 then 144 else 128

/-- High bound of the first continuation byte of a 4-byte sequence. -/
def utf8Cont3Hi (b : Nat) : Nat := if b = 244 then 143 else 128 + 63

/-- Fueled UTF-8 validity check (standard table, including the overlong
and surrogate exclusions); models the check performed by
`String::from_utf8`.  Fuel at least the list length always suffices. -/
def utf8OkAux : Nat → List Nat → Bool
  | _, [] => true
  | 0, _ :: _ => false
  | fuel + 1, b :: rest =>
    if b ≤ 127 then utf8OkAux fuel rest
    else if 194 ≤ b && b ≤ 223 then
      match rest with
      | c1 :: rest1 => (128 ≤ c1 && c1 ≤ 191) && utf8OkAux fuel rest1
      | [] => false
    else if 224 ≤ b && b ≤ 239 then
      match rest with
      | c1 :: c2 :: rest2 =>
        (utf8Cont2Lo b ≤ c1 && c1 ≤ utf8Cont2Hi b) && (128 ≤ c2 && c2 ≤ 191) &&
          utf8OkAux fuel rest2
      | _ => false
    else if 240 ≤ b && b ≤ 244 then
      match rest with
      | c1 :: c2 :: c3 :: rest3 =>
        (utf8Cont3Lo b ≤ c1 && c1 ≤ utf8Cont3Hi b) && (128 ≤ c2 && c2 ≤ 191) &&
          (128 ≤ c3 && c3 ≤ 191) && utf8OkAux fuel rest3
      | _ => false
    else false

/-- UTF-8 validity of a byte list (the `String::from_utf8(..).unwrap()`
precondition in `format_data_point`). -/
def utf8Ok (l : List Nat) : Bool := utf8OkAux l.length l

/-- Fueled most-significant-first decimal digit expansion. -/
def natDigitsAux : Nat → Nat → List Nat
  | 0, _ => []
  | fuel + 1, n => if n < 10 then [48 + n] else natDigitsAux fuel (n / 10) ++ [48 + n % 10]

/-- Decimal digit bytes of a natural number (`"0"` for 0). -/
def natStr (n : Nat) : List Nat := natDigitsAux (n + 1) n

/-- One-fractional-digit decimal rendering of a tenths-of-a-degree
fixed-point value `n`: the digits of `|n| / 10`, a `'.'`, and the single
digit `|n| % 10`, with a leading `'-'` for negative values.  This is the
value the source's `format!("{:.1}", 0.1 * n as f32)` prints for the
in-range (three-decimal-digit) temperatures. -/
def showTenth (n : Int) : List Nat :=
  let m := n.natAbs
  let core := natStr (m / 10) ++ [46, 48 + m % 10]
  if n < 0 then 45 :: core else core

/-- Mean in tenths with positive-infinity rounding on exact halves.
Modelled from the spec: the source computes
`0.1 * total as f32 / count as f32` and prints it with `{:.1}`; the spec
fixes the rounding semantics of that rendering as round-half-toward-
positive-infinity, i.e. `⌊total/count + 1/2⌋`. -/
def meanTenths (total : Int) (count : Nat) : Int :=
  Int.fdiv (2 * total + count) (2 * count)

/-- Rendering of the mean field of `format_data_point`. -/
def showMean (total : Int) (count : Nat) : List Nat :=
  showTenth (meanTenths total count)

/-- `StationData::format_data_point`:
`format!("{}={:.1}/{:.1}/{:.1}", name, 0.1*min, 0.1*total/count, 0.1*max)`.
`none` models the panics of `name.unwrap()` and of
`String::from_utf8(..).unwrap()` on invalid UTF-8. -/
def format_data_point (d : StationData) : Option (List Nat) :=
  match d.name with
  | none => none
  | some nm =>
    if utf8Ok nm then
      some (nm ++ [61] ++ showTenth d.min_temp ++ [47] ++
        showMean d.total d.count ++ [47] ++ showTenth d.max_temp)
    else none

/-- Sequence a list of optional rendered entries; `none` (a panic in one
`format_data_point` call) aborts the whole rendering. -/
def allSome : List (Option (List Nat)) → Option (List (List Nat))
  | [] => some []
  | none :: _ => none
  | some x :: rest => (allSome rest).map (x :: ·)

/-- `format_output` from `v15.rs`: keep the buckets with `count > 0`,
render each, sort the rendered strings (`Vec::sort`, byte-wise
lexicographic), join with `", "` and wrap in `{`/`}` (bytes 123/125). -/
def format_output (backing : List StationData) : Option (List Nat) :=
  match allSome ((backing.filter (fun d => 0 < d.count)).map format_data_point) with
  | none => none
  | some parts => some ([123] ++ List.intercalate [44, 32] (parts.mergeSort bytesLE) ++ [125])

/-- A well-formed station name for the amended scan-termination claim:
3 to 41 bytes, none of them `;` or `\n`. -/
def WFname (nm : List Nat) : Prop :=
  3 ≤ nm.length ∧ nm.length ≤ 41 ∧ ∀ b ∈ nm, b ≠ 59 ∧ b ≠ 10

/-- A well-formed value field: 1 to 5 bytes (covering `-99.9 ..= 99.9`
with one fractional digit), none of them `;` or `\n`. -/
def WFvalue (v : List Nat) : Prop :=
  1 ≤ v.length ∧ v.length ≤ 5 ∧ ∀ b ∈ v, b ≠ 59 ∧ b ≠ 10

/-- A well-formed record line `name;value\n`. -/
def WFline (l : List Nat) : Prop :=
  ∃ nm v, l = nm ++ 59 :: (v ++ [10]) ∧ WFname nm ∧ WFvalue v

/-- A byte list that is a concatenation of well-formed record lines
(the shape of `file[offset..]` at every line-aligned offset). -/
def WFtail (l : List Nat) : Prop :=
  ∃ lines : List (List Nat), (∀ x ∈ lines, WFline x) ∧ l = lines.flatten

/-- The claimed shape of the planner output, checked along the list:
each segment starts where told, starts do not exceed ends, every
non-final segment end (a non-initial boundary of the partition) is
immediately preceded by a `\n` byte, and the final end is the file
length.  `SegChain file 0 segs` is exactly the claim's "contiguous,
non-overlapping, first start 0, last end file_len, boundaries after a
newline". -/
def SegChain (file : List Nat) : Nat → List (Nat × Nat) → Prop
  | p, [] => p = file.length
  | p, (a, b) :: rest =>
    a = p ∧ p ≤ b ∧ (rest ≠ [] → 1 ≤ b ∧ file[b - 1]? = some 10) ∧ SegChain file b rest

/-- The record log of a segment scan (empty on panic); a decidable
projection of `scan_file_segment` used in concrete evaluations. -/
def segLog (file : List Nat) (s e : Nat) : List RecEntry :=
  match scan_file_segment file s e with
  | .ok r => r.2
  | .error _ => []

/-- The error outcome of a segment scan (`none` on success). -/
def scanOutcome (file : List Nat) (s e : Nat) : Option RunErr :=
  match scan_file_segment file s e with
  | .ok _ => none
  | .error err => some err

/-- The segment list produced by the planner (empty on panic). -/
def segsOf (file : List Nat) (n : Nat) : List (Nat × Nat) :=
  match find_segment_splits file n with
  | .ok s => s
  | .error _ => []

/-- The `i`-th test record line `"aXY;1.0\n"` (8 bytes, name `aXY`). -/
def mkLine (i : Nat) : List Nat := [97, 48 + i / 10, 48 + i % 10, 59, 49, 46, 48, 10]

/-- A 136-byte test file of 17 well-formed 8-byte records. -/
def file136 : List Nat := ((List.range 17).map mkLine).flatten

/-- The records of `file136` as (name, parsed value) pairs. -/
def file136Recs : List RecEntry :=
  (List.range 17).map (fun i => ([97, 48 + i / 10, 48 + i % 10], (10 : Int)))

/-- A well-formed single-record file whose station name has length 1
(`"a;1.0\n"`), inside the spec's 1-100 byte name range. -/
def c3File : List Nat := [97, 59, 49, 46, 48, 10]

/-- A well-formed single-record file `"a00;1.0\n"` (name length 3)
used as the witness segment for the amended termination claim. -/
def c3Seg : List Nat := [97, 48, 48, 59, 49, 46, 48, 10]

/-- A 60-byte window whose only `;` sits at offset 50, past the 48 bytes
inspected by the SIMD fast path. -/
def c4Buf : List Nat := List.replicate 50 48 ++ [59] ++ List.replicate 9 48

/-- A 48-byte window (exactly at the fast-path threshold) whose target
`;` sits at the last offset. -/
def c4Buf48 : List Nat := List.replicate 47 48 ++ [59]

/-- A per-thread table that is empty everywhere. -/
def c1Table0 : HMap := HMap.empty

/-- A per-thread table holding one observation (value 5, name `aaa`)
in bucket 0 and nothing else. -/
def c1Table1 : HMap :=
  fun i => if i = 0 then ⟨5, 5, 5, 1, some [97, 97, 97]⟩ else StationData.new

/-- The integer denoted by a most-significant-first ASCII digit list. -/
def digitsVal (ds : List Nat) : Int :=
  ds.foldl (fun a d => 10 * a + ((d : Int) - 48)) 0

/-- A rendered number with exactly one fractional digit: some bytes
without a `'.'`, then `'.'` and a single ASCII digit. -/
def oneFrac (s : List Nat) : Prop :=
  ∃ t d, s = t ++ [46, d] ∧ 48 ≤ d ∧ d ≤ 57 ∧ 46 ∉ t

/-- A concrete final table for the formatting witness: one bucket with
a single `-3.5` observation for station `Berlin`, and one empty bucket. -/
def c8Backing : List StationData :=
  [⟨-35, -35, -35, 1, some [66, 101, 114, 108, 105, 110]⟩, StationData.new]

/-- Table records reachable from `StationData::new()` by finite
sequences of `add_temp` and `merge_with` (merging only reachable
records, as the program does). -/
inductive Reach : StationData → Prop where
  | new : Reach StationData.new
  | add (s : StationData) (t : Int) (nm : List Nat) : Reach s → Reach (s.add_temp t nm)
  | merge (s o : StationData) : Reach s → Reach o → Reach (s.merge_with o)

set_option maxRecDepth 100000

theorem isAsciiDigit_eq_true {c : Nat} (h1 : 48 ≤ c) (h2 : c ≤ 57) : isAsciiDigit c = true := by
  simp only [isAsciiDigit, Bool.and_eq_true, decide_eq_true_eq]
  omega

theorem reach_inv (s : StationData) (h : Reach s) :
    (s.count = 0 → s = StationData.new) ∧
    (0 < s.count → s.min_temp ≤ s.max_temp ∧ s.name.isSome = true) := by
  induction h with
  | new =>
    refine ⟨fun _ => rfl, fun h0 => ?_⟩
    simp [StationData.new] at h0
  | add s t nm hs ih =>
    constructor
    · intro h0
      simp [StationData.add_temp] at h0
    · intro _
      refine ⟨le_trans (min_le_right _ _) (le_max_right _ _), ?_⟩
      simp only [StationData.add_temp]
      cases hn : s.name <;> simp [hn]
  | merge s o hs ho ihs iho =>
    constructor
    · intro h0
      have hco : s.count = 0 ∧ o.count = 0 := by
        simp only [StationData.merge_with] at h0
        omega
      have hs0 := ihs.1 hco.1
      have ho0 := iho.1 hco.2
      rw [hs0, ho0]
      decide
    · intro hpos
      by_cases hsc : 0 < s.count
      · obtain ⟨h1, h2⟩ := ihs.2 hsc
        constructor
        · exact le_trans (min_le_left _ _) (le_trans h1 (le_max_left _ _))
        · simp only [StationData.merge_with]
          cases hn : s.name with
          | none => rw [hn] at h2; simp at h2
          | some nm => simp [hn]
      · have hs0 := ihs.1 (by omega)
        have hoc : 0 < o.count := by
          simp only [StationData.merge_with] at hpos
          omega
        obtain ⟨h1, h2⟩ := iho.2 hoc
        constructor
        · exact le_trans (min_le_right _ _) (le_trans h1 (le_max_right _ _))
        · simp only [StationData.merge_with, hs0, StationData.new]
          simpa using h2

/-- C9: every `StationData` reachable from `new()` by `add_temp` and
`merge_with` operations satisfies the record invariant: `count > 0`
implies `min_temp ≤ max_temp` and the name is set; and both operations
preserve reachability (hence the invariant). -/
theorem c9_station_record_invariant (s : StationData) (h : Reach s) :
    (0 < s.count → s.min_temp ≤ s.max_temp ∧ s.name.isSome = true) ∧
    (∀ (t : Int) (nm : List Nat), Reach (s.add_temp t nm)) ∧
    (∀ o : StationData, Reach o → Reach (s.merge_with o)) :=
  ⟨(reach_inv s h).2, fun t nm => Reach.add s t nm h, fun o ho => Reach.merge s o h ho⟩

/-- Witness for C9 at the concrete record `new().add_temp(5, "aab")`. -/
theorem c9_station_record_invariant_witness :
    Reach (StationData.new.add_temp 5 [97, 97, 98]) ∧
    (0 < (StationData.new.add_temp 5 [97, 97, 98]).count →
      (StationData.new.add_temp 5 [97, 97, 98]).min_temp ≤
        (StationData.new.add_temp 5 [97, 97, 98]).max_temp ∧
      (StationData.new.add_temp 5 [97, 97, 98]).name.isSome = true) :=
  ⟨Reach.add _ _ _ Reach.new,
    (c9_station_record_invariant _ (Reach.add _ _ _ Reach.new)).1⟩

/-- C10: bucket lookup is total for names of length at least 3: the
fingerprint exists and the bucket index `mix64(key) & (32768 - 1)` is
strictly below the backing length 32768, so absorption succeeds; for
names of length 1 or 2 the fingerprint's slice indexing precondition is
violated (the embedded construction signals the panic with `none`). -/
theorem c10_table_lookup_total (key : List Nat) :
    (3 ≤ key.length →
      ∃ i, get_index key = some i ∧ i < tableSize ∧
        ∀ (m : HMap) (t : Int), (mapAdd m key t).isSome = true) ∧
    (key.length < 3 → get_index key = none) := by
  constructor
  · intro h3
    have hk : get_index key = some (mix64 (leBytes8 [key.getD 0 0, key.getD 1 0, key.getD 2 0,
        key.getD (key.length - 3) 0, key.getD (key.length - 2) 0,
        key.getD (key.length - 1) 0, key.length % 256, 0]) &&& (32768 - 1)) := by
      simp [get_index, get_u64_key, h3]
    refine ⟨_, hk, ?_, ?_⟩
    · have hle : mix64 (leBytes8 [key.getD 0 0, key.getD 1 0, key.getD 2 0,
          key.getD (key.length - 3) 0, key.getD (key.length - 2) 0,
          key.getD (key.length - 1) 0, key.length % 256, 0]) &&& (32768 - 1) ≤ 32768 - 1 :=
        Nat.and_le_right
      simp only [tableSize]
      omega
    · intro m t
      simp [mapAdd, hk]
  · intro hlt
    simp [get_index, get_u64_key]
    omega

/-- Witness for C10 at the concrete 3-byte name `aaa`. -/
theorem c10_table_lookup_total_witness :
    3 ≤ ([97, 97, 97] : List Nat).length ∧
    ∃ i, get_index [97, 97, 97] = some i ∧ i < tableSize ∧
      ∀ (m : HMap) (t : Int), (mapAdd m [97, 97, 97] t).isSome = true :=
  ⟨by decide, (c10_table_lookup_total [97, 97, 97]).1 (by decide)⟩

/-- C1 (code-bug evaluation): the merge loop of `run` skips every bucket
at which the *first* per-thread table is empty, even when a later table
holds data there.  With table 0 empty at bucket 0 and table 1 holding
one observation there, the merged bucket is `StationData::new()` with
`count = 0`, while the claim (and the spec's §4.6 contract) requires
`count = 0 + 1 = 1`. -/
theorem c1_merge_drops_bucket :
    mergeTables [c1Table0, c1Table1] 0 = StationData.new ∧
    (mergeTables [c1Table0, c1Table1] 0).count = 0 ∧
    (c1Table0 0).count + (c1Table1 0).count = 1 := by
  refine ⟨?_, ?_, ?_⟩ <;> decide

/-- C2 (code-bug evaluation): on the 136-byte file of 17 records with
planner segments `(0, 72)` and `(72, 136)`, the first worker's final
(and only) chunk read extends past its segment end and the scan absorbs
every complete line in the chunk, so record `a09` (which lies in the
second segment) is absorbed by both workers: it occurs once in the
file's records but twice in the combined absorption log. -/
theorem c2_duplicate_absorption :
    segsOf file136 2 = [(0, 72), (72, 136)] ∧
    file136 = (file136Recs.map (fun r => r.1 ++ [59, 49, 46, 48, 10])).flatten ∧
    file136Recs.count ([97, 48, 57], (10 : Int)) = 1 ∧
    (segLog file136 0 72 ++ segLog file136 72 136).count ([97, 48, 57], (10 : Int)) = 2 := by
  refine ⟨by decide, by decide, by decide, by decide⟩

/-- C3 (counterexample to the claim as stated): the well-formed
single-record file `"a;1.0\n"` has a name of length 1 — inside the
spec's 1-100 byte name range — and the scan of its full segment panics
in the fingerprint construction (`bytes[bytes.len() - 3]`). -/
theorem c3_scan_counterexample :
    scanOutcome c3File 0 6 = some RunErr.panic := by
  decide

/-- C4 (counterexample to the claim as stated): on a 60-byte window
whose only `;` sits at offset 50, `find_char` takes the SIMD fast path,
inspects only the first 48 bytes, and returns `None` although the
target is present (the scalar `memchr` finds it at 50). -/
theorem c4_find_char_counterexample :
    c4Buf.length = 60 ∧ memchr 59 c4Buf = some 50 ∧ find_char c4Buf 59 = none := by
  refine ⟨by decide, by decide, by decide⟩

theorem foldl_accum_filter (l : List Nat) (a : Int) :
    l.foldl (fun t c => if isAsciiDigit c then t * 10 + ((c : Int) - 48) else t) a =
      (l.filter isAsciiDigit).foldl
        (fun t c => if isAsciiDigit c then t * 10 + ((c : Int) - 48) else t) a := by
  induction l generalizing a with
  | nil => rfl
  | cons c rest ih =>
    by_cases hc : isAsciiDigit c = true
    · simp [List.filter, hc, List.foldl, ih]
    · simp at hc
      simp [List.filter, hc, List.foldl, ih]

/-- C7: on every well-formed value slice — optional `-`, one or two
ASCII digits, `.`, one fractional digit — `parse_temp` returns the
value in tenths of a degree, negated exactly when the first byte is
`-`; and the digit accumulation ignores non-digit bytes (folding a
slice equals folding its ASCII-digit subsequence). -/
theorem c7_parse_temp_correct :
    (∀ (neg : Bool) (ds : List Nat) (f : Nat),
      ds.length = 1 ∨ ds.length = 2 →
      (∀ d ∈ ds, 48 ≤ d ∧ d ≤ 57) →
      48 ≤ f → f ≤ 57 →
      parse_temp ((if neg then [45] else []) ++ ds ++ [46, f]) =
        some ((if neg then (-1 : Int) else 1) * (10 * digitsVal ds + ((f : Int) - 48)))) ∧
    (∀ line : List Nat, accumDigits line = accumDigits (line.filter isAsciiDigit)) := by
  constructor
  · intro neg ds f hlen hds hf1 hf2
    have hF : isAsciiDigit f = true := isAsciiDigit_eq_true hf1 hf2
    rcases hlen with h1 | h2
    · obtain ⟨a, rfl⟩ := List.length_eq_one.mp h1
      obtain ⟨ha1, ha2⟩ := hds a (by simp)
      have hA : isAsciiDigit a = true := isAsciiDigit_eq_true ha1 ha2
      have hane : ¬(a = 45) := by omega
      cases neg <;>
        simp [parse_temp, accumDigits, digitsVal, isAsciiDigit, hane,
          List.foldl] <;> [skip; skip] <;> omega
    · obtain ⟨a, b, rfl⟩ := List.length_eq_two.mp h2
      obtain ⟨ha1, ha2⟩ := hds a (by simp)
      obtain ⟨hb1, hb2⟩ := hds b (by simp)
      have hane : ¬(a = 45) := by omega
      cases neg <;>
        simp [parse_temp, accumDigits, digitsVal, isAsciiDigit, hane,
          List.foldl] <;> [skip; skip] <;> omega
  · intro line
    simpa [accumDigits] using
      foldl_accum_filter line 0

theorem to_bitmask_eq_zero_iff (v : List Nat) (t : Nat) :
    to_bitmask v t = 0 ↔ firstIdxOf t v = none := by
  induction v with
  | nil => simp [to_bitmask, firstIdxOf]
  | cons c rest ih =>
    by_cases hc : c = t
    · simp [to_bitmask, firstIdxOf, hc]
    · simp [to_bitmask, firstIdxOf, hc, ih]

theorem to_bitmask_lt (v : List Nat) (t : Nat) : to_bitmask v t < 2 ^ v.length := by
  induction v with
  | nil => simp [to_bitmask]
  | cons c rest ih =>
    simp only [to_bitmask, List.length_cons, pow_succ]
    by_cases hc : c = t <;> simp [hc] <;> omega

theorem ctzAux_succ (f n : Nat) :
    ctzAux (f + 1) n = if n % 2 = 1 then 0 else ctzAux f (n / 2) + 1 := rfl

theorem first_match_def (v : List Nat) (t : Nat) :
    first_match_in_u8x16 v t =
      if to_bitmask v t = 0 then none else some (trailing_zeros (to_bitmask v t)) := rfl

theorem ctzAux_fuel (f : Nat) : ∀ (g n : Nat), n ≠ 0 → n < 2 ^ f → f ≤ g →
    ctzAux g n = ctzAux f n := by
  induction f with
  | zero =>
    intro g n hn hlt _
    have h1 : (2 : Nat) ^ 0 = 1 := rfl
    omega
  | succ f ih =>
    intro g n hn hlt hfg
    obtain ⟨g', rfl⟩ : ∃ g', g = g' + 1 := ⟨g - 1, by omega⟩
    rw [ctzAux_succ, ctzAux_succ]
    by_cases hodd : n % 2 = 1
    · simp [hodd]
    · rw [if_neg hodd, if_neg hodd]
      have hne : n / 2 ≠ 0 := by omega
      have hlt2 : n / 2 < 2 ^ f := by
        rw [pow_succ] at hlt
        omega
      rw [ih g' (n / 2) hne hlt2 (by omega)]

theorem first_match_eq_firstIdxOf (v : List Nat) (t : Nat) (hv : v.length ≤ 63) :
    first_match_in_u8x16 v t = firstIdxOf t v := by
  induction v with
  | nil => rfl
  | cons c rest ih =>
    have hrest : rest.length ≤ 63 := by simp at hv; omega
    by_cases hc : c = t
    · subst hc
      have hbits : to_bitmask (c :: rest) c = 1 + 2 * to_bitmask rest c := by
        simp [to_bitmask]
      rw [first_match_def, hbits, if_neg (by omega), trailing_zeros,
        show (64 : Nat) = 63 + 1 from rfl, ctzAux_succ, if_pos (by omega)]
      simp [firstIdxOf]
    · have hbits : to_bitmask (c :: rest) t = 2 * to_bitmask rest t := by
        simp [to_bitmask, hc]
      by_cases hz : to_bitmask rest t = 0
      · have hnone : firstIdxOf t rest = none := (to_bitmask_eq_zero_iff rest t).mp hz
        rw [first_match_def, hbits, hz]
        simp [firstIdxOf, hc, hnone]
      · have hlt63 : to_bitmask rest t < 2 ^ 63 := by
          have h1 := to_bitmask_lt rest t
          have h2 : (2 : Nat) ^ rest.length ≤ 2 ^ 63 :=
            Nat.pow_le_pow_right (by omega) (by omega)
          omega
        have hctz : ctzAux 64 (2 * to_bitmask rest t) = ctzAux 64 (to_bitmask rest t) + 1 := by
          rw [show (64 : Nat) = 63 + 1 from rfl, ctzAux_succ, if_neg (by omega)]
          congr 1
          rw [Nat.mul_div_cancel_left _ (by omega : (0 : Nat) < 2)]
          exact (ctzAux_fuel 63 64 (to_bitmask rest t) hz hlt63 (by omega)).symm
        have hidx : firstIdxOf t rest = some (ctzAux 64 (to_bitmask rest t)) := by
          rw [← ih hrest, first_match_def, if_neg hz, trailing_zeros]
        rw [first_match_def, hbits, if_neg (by omega), trailing_zeros, hctz]
        simp [firstIdxOf, hc, hidx]

theorem firstIdxOf_cons (t c : Nat) (l : List Nat) :
    firstIdxOf t (c :: l) = if c = t then some 0 else (firstIdxOf t l).map (· + 1) := rfl

theorem firstIdxOf_append_left {t : Nat} {l1 : List Nat} {i : Nat} (l2 : List Nat)
    (h : firstIdxOf t l1 = some i) : firstIdxOf t (l1 ++ l2) = some i := by
  induction l1 generalizing i with
  | nil => simp [firstIdxOf] at h
  | cons c rest ih =>
    rw [firstIdxOf_cons] at h
    rw [List.cons_append, firstIdxOf_cons]
    by_cases hc : c = t
    · rw [if_pos hc] at h ⊢
      exact h
    · rw [if_neg hc] at h ⊢
      cases hr : firstIdxOf t rest with
      | none => rw [hr] at h; simp at h
      | some j =>
        rw [hr] at h
        simp only [Option.map_some'] at h
        rw [ih hr, Option.map_some']
        exact h

theorem firstIdxOf_append_right {t : Nat} {l1 : List Nat} (l2 : List Nat)
    (h : firstIdxOf t l1 = none) :
    firstIdxOf t (l1 ++ l2) = (firstIdxOf t l2).map (· + l1.length) := by
  induction l1 with
  | nil =>
    simp [firstIdxOf]
  | cons c rest ih =>
    rw [firstIdxOf_cons] at h
    rw [List.cons_append, firstIdxOf_cons]
    by_cases hc : c = t
    · rw [if_pos hc] at h
      simp at h
    · rw [if_neg hc] at h ⊢
      have hr : firstIdxOf t rest = none := by
        cases hr : firstIdxOf t rest with
        | none => rfl
        | some j => rw [hr] at h; simp at h
      rw [ih hr]
      cases firstIdxOf t l2 with
      | none => rfl
      | some j =>
        simp only [Option.map_some', List.length_cons, Option.some.injEq]
        try omega

theorem take_split (l : List Nat) (m n : Nat) :
    l.take (m + n) = l.take m ++ (l.drop m).take n := by
  induction m generalizing l with
  | zero => simp
  | succ m ih =>
    cases l with
    | nil => simp
    | cons a l' =>
      simp only [Nat.succ_add, List.take_succ_cons, List.drop_succ_cons, List.cons_append,
        List.cons.injEq, true_and]
      exact ih l'

theorem find_char_ge48 (buf : List Nat) (t : Nat) (h48 : 48 ≤ buf.length) :
  find_char buf t = memchr t (buf.take 48) := by
  have hlen1 : (buf.take 16).length = 16 := by
    simp only [List.length_take]
    exact Nat.min_eq_left (by omega)
  have hlen2 : ((buf.drop 16).take 16).length = 16 := by
    simp only [List.length_take, List.length_drop]
    exact Nat.min_eq_left (by omega)
  have e48 : buf.take 48 = buf.take 16 ++ ((buf.drop 16).take 16 ++ (buf.drop 32).take 16) := by
    have e1 : buf.take 48 = buf.take 16 ++ (buf.drop 16).take 32 := take_split buf 16 32
    have e2 : (buf.drop 16).take 32 =
        (buf.drop 16).take 16 ++ ((buf.drop 16).drop 16).take 16 :=
      take_split (buf.drop 16) 16 16
    rw [e1, e2, List.drop_drop]
  have f1 := first_match_eq_firstIdxOf (buf.take 16) t (by omega)
  have f2 := first_match_eq_firstIdxOf ((buf.drop 16).take 16) t (by omega)
  have f3 := first_match_eq_firstIdxOf ((buf.drop 32).take 16) t
    (le_trans (List.length_take_le _ _) (by omega))
  rw [find_char, if_pos h48, f1, f2, f3, memchr, e48]
  cases h1 : firstIdxOf t (buf.take 16) with
  | some i => rw [firstIdxOf_append_left _ h1]
  | none =>
    rw [firstIdxOf_append_right _ h1, hlen1]
    cases h2 : firstIdxOf t ((buf.drop 16).take 16) with
    | some i =>
      rw [firstIdxOf_append_left _ h2]
      simp [Nat.add_comm]
    | none =>
      rw [firstIdxOf_append_right _ h2, hlen2]
      cases h3 : firstIdxOf t ((buf.drop 32).take 16) with
      | some i =>
        simp only [Option.map_some', Option.some.injEq]
        try omega
      | none => simp

theorem find_char_lt48 (buf : List Nat) (t : Nat) (hlt : buf.length < 48) :
    find_char buf t = memchr t buf := by
  rw [find_char, if_neg (by omega)]

/-- C4 (amended): on windows shorter than 48 bytes `find_char` is the
scalar `memchr` (first occurrence in the whole window); on windows of
at least 48 bytes it returns the first occurrence within the first 48
bytes (`None` when the target is absent from those bytes, even if it
occurs later); hence on a window of exactly 48 bytes the SIMD fast path
computes exactly what the scalar fallback computes on the same input. -/
theorem c4_find_char_spec (buf : List Nat) (t : Nat) :
    (buf.length < 48 → find_char buf t = memchr t buf) ∧
    (48 ≤ buf.length → find_char buf t = memchr t (buf.take 48)) ∧
    (buf.length = 48 → find_char buf t = memchr t buf) := by
  refine ⟨find_char_lt48 buf t, find_char_ge48 buf t, ?_⟩
  intro heq
  rw [find_char_ge48 buf t (by omega), List.take_of_length_le (by omega)]

/-- Witness for C4 at the concrete 48-byte window `c4Buf48`. -/
theorem c4_find_char_spec_witness :
    c4Buf48.length = 48 ∧ find_char c4Buf48 59 = memchr 59 c4Buf48 :=
  ⟨by decide, (c4_find_char_spec c4Buf48 59).2.2 (by decide)⟩

theorem firstIdxOf_eq_none_iff (t : Nat) (l : List Nat) :
    firstIdxOf t l = none ↔ t ∉ l := by
  induction l with
  | nil => simp [firstIdxOf]
  | cons c rest ih =>
    rw [firstIdxOf_cons]
    by_cases hc : c = t
    · simp [hc]
    · have hct : ¬t = c := fun he => hc he.symm
      simp [hc, ih, hct]

theorem firstIdxOf_getElem {t : Nat} {l : List Nat} {j : Nat} (h : firstIdxOf t l = some j) :
    l[j]? = some t := by
  induction l generalizing j with
  | nil => simp [firstIdxOf] at h
  | cons c rest ih =>
    rw [firstIdxOf_cons] at h
    by_cases hc : c = t
    · rw [if_pos hc] at h
      simp at h
      subst h
      simp [hc]
    · rw [if_neg hc] at h
      cases hr : firstIdxOf t rest with
      | none => rw [hr] at h; simp at h
      | some j' =>
        rw [hr] at h
        simp only [Option.map_some'] at h
        obtain rfl : j' + 1 = j := by simpa using h
        simpa using ih hr

theorem firstIdxOf_min {t : Nat} {l : List Nat} {j : Nat} (h : firstIdxOf t l = some j) :
    ∀ q, q < j → l[q]? ≠ some t := by
  induction l generalizing j with
  | nil => simp [firstIdxOf] at h
  | cons c rest ih =>
    rw [firstIdxOf_cons] at h
    by_cases hc : c = t
    · rw [if_pos hc] at h
      simp at h
      subst h
      intro q hq
      omega
    · rw [if_neg hc] at h
      cases hr : firstIdxOf t rest with
      | none => rw [hr] at h; simp at h
      | some j' =>
        rw [hr] at h
        simp only [Option.map_some'] at h
        obtain rfl : j' + 1 = j := by simpa using h
        intro q hq
        cases q with
        | zero =>
          simp only [List.getElem?_cons_zero]
          intro he
          exact hc (by simpa using he)
        | succ q' =>
          simp only [List.getElem?_cons_succ]
          exact ih hr q' (by omega)

theorem probe_ok (file : List Nat) (s : Nat)
    (hlen : s + 64 ≤ file.length) (hmem : 10 ∈ (file.drop s).take 64) :
    ∃ j, probe file s = .ok (s + j + 1) ∧ j < 64 ∧
      file[s + j]? = some 10 ∧ ∀ q, q < j → file[s + q]? ≠ some 10 := by
  have hwin : ∀ q, q < 64 → ((file.drop s).take 64)[q]? = file[s + q]? := by
    intro q hq
    rw [List.getElem?_take_of_lt hq, List.getElem?_drop]
  obtain ⟨j, hj⟩ : ∃ j, firstIdxOf 10 ((file.drop s).take 64) = some j := by
    cases hfi : firstIdxOf 10 ((file.drop s).take 64) with
    | none => exact absurd hmem ((firstIdxOf_eq_none_iff _ _).mp hfi)
    | some j => exact ⟨j, rfl⟩
  have hj64 : j < 64 := by
    have hg := firstIdxOf_getElem hj
    have hlt := (List.getElem?_eq_some_iff.mp hg).1
    rw [List.length_take, List.length_drop] at hlt
    omega
  refine ⟨j, ?_, hj64, ?_, ?_⟩
  · simp only [probe, if_pos hlen, hj]
  · rw [← hwin j hj64]
    exact firstIdxOf_getElem hj
  · intro q hq
    rw [← hwin q (by omega)]
    exact firstIdxOf_min hj q hq

theorem splitsAux_ok (file : List Nat) (exp : Nat) :
    ∀ (k i prev s : Nat),
      (∀ j, i ≤ j → j < i + k → j * exp + 64 ≤ file.length ∧
        10 ∈ (file.drop (j * exp)).take 64) →
      s ≤ i * exp →
      prev ≤ s + 64 →
      prev ≤ file.length →
      (∀ q, s ≤ q → q + 1 < prev → file[q]? ≠ some 10) →
      ∃ segs, splitsAux file exp prev (List.range' i k) = .ok segs ∧
        segs.length = k + 1 ∧ SegChain file prev segs := by
  intro k
  induction k with
  | zero =>
    intro i prev s _ _ _ hprevLen _
    refine ⟨[(prev, file.length)], by simp [splitsAux], by simp, ?_⟩
    simp [SegChain, hprevLen]
  | succ k ih =>
    intro i prev s hpre hs hprev64 hprevLen hnonl
    have hpi := hpre i (le_refl i) (by omega)
    obtain ⟨j, hprobe, hj64, hnl, hmin⟩ := probe_ok file (i * exp) hpi.1 hpi.2
    have hsi : s ≤ i * exp := hs
    have hcurrLen : i * exp + j + 1 ≤ file.length := by omega
    have hprevCurr : prev ≤ i * exp + j + 1 := by
      by_contra hlt
      push_neg at hlt
      have hq := hnonl (i * exp + j) (by omega) (by omega)
      exact hq hnl
    have hnonl2 : ∀ q, i * exp ≤ q → q + 1 < i * exp + j + 1 → file[q]? ≠ some 10 := by
      intro q hq1 hq2
      have : q - i * exp < j := by omega
      have := hmin (q - i * exp) this
      have he : i * exp + (q - i * exp) = q := by omega
      rw [he] at this
      exact this
    obtain ⟨segs', heq', hlen', hchain'⟩ :=
      ih (i + 1) (i * exp + j + 1) (i * exp)
        (fun j' h1 h2 => hpre j' (by omega) (by omega))
        (by have := Nat.mul_le_mul_right exp (show i ≤ i + 1 by omega); omega)
        (by omega) hcurrLen hnonl2
    refine ⟨(prev, i * exp + j + 1) :: segs', ?_, by simp [hlen'], ?_⟩
    · rw [List.range'_succ]
      simp only [splitsAux, hprobe, heq']
    · refine ⟨rfl, hprevCurr, ?_, hchain'⟩
      intro _
      refine ⟨by omega, ?_⟩
      have he : i * exp + j + 1 - 1 = i * exp + j := by omega
      rw [he]
      exact hnl

/-- C6: for every file and thread count `N ≥ 1` satisfying the
planner's probe preconditions (each of the `N - 1` probe windows
`[i*(len/N), i*(len/N)+64)` lies inside the file and contains a `\n`),
`find_segment_splits` returns exactly `N` segments that are chained
(each start equals the previous end), start at 0, end at the file
length, have start ≤ end, and every non-initial boundary is immediately
preceded by a `\n` byte — i.e. the segments partition `[0, file_len)`
without splitting any line. -/
theorem c6_segment_splits_partition (file : List Nat) (n : Nat) (hn : 0 < n)
    (hpre : ∀ j, 1 ≤ j → j < n → j * (file.length / n) + 64 ≤ file.length ∧
      10 ∈ (file.drop (j * (file.length / n))).take 64) :
    ∃ segs, find_segment_splits file n = .ok segs ∧
      segs.length = n ∧ SegChain file 0 segs := by
  obtain ⟨segs, heq, hlen, hchain⟩ :=
    splitsAux_ok file (file.length / n) (n - 1) 1 0 0
      (fun j h1 h2 => hpre j h1 (by omega))
      (by omega) (by omega) (by omega) (by omega)
  refine ⟨segs, ?_, by omega, hchain⟩
  rw [find_segment_splits, if_neg (by omega)]
  exact heq

/-- Witness for C6 on the concrete 136-byte file with `N = 2`. -/
theorem c6_segment_splits_partition_witness :
    (0 < 2 ∧ ∀ j, 1 ≤ j → j < 2 → j * (file136.length / 2) + 64 ≤ file136.length ∧
      10 ∈ (file136.drop (j * (file136.length / 2))).take 64) ∧
    ∃ segs, find_segment_splits file136 2 = .ok segs ∧
      segs.length = 2 ∧ SegChain file136 0 segs :=
  ⟨⟨by decide, by decide⟩,
    c6_segment_splits_partition file136 2 (by decide) (by decide)⟩

theorem bytesLE_total : ∀ a b : List Nat, (bytesLE a b || bytesLE b a) = true := by
  intro a
  induction a with
  | nil => intro b; simp [bytesLE]
  | cons x xs ih =>
    intro b
    cases b with
    | nil => simp [bytesLE]
    | cons y ys =>
      simp only [bytesLE, Bool.or_eq_true, decide_eq_true_eq, Bool.and_eq_true]
      rcases Nat.lt_trichotomy x y with h | h | h
      · left; left; exact h
      · have htot := ih ys
        simp only [Bool.or_eq_true] at htot
        rcases htot with h2 | h2
        · left; right; exact ⟨h, h2⟩
        · right; right; exact ⟨h.symm, h2⟩
      · right; left; exact h

theorem bytesLE_trans : ∀ a b c : List Nat,
    bytesLE a b = true → bytesLE b c = true → bytesLE a c = true := by
  intro a
  induction a with
  | nil => intro b c _ _; simp [bytesLE]
  | cons x xs ih =>
    intro b c hab hbc
    cases b with
    | nil => simp [bytesLE] at hab
    | cons y ys =>
      cases c with
      | nil => simp [bytesLE] at hbc
      | cons z zs =>
        simp only [bytesLE, Bool.or_eq_true, decide_eq_true_eq, Bool.and_eq_true] at hab hbc ⊢
        rcases hab with h1 | ⟨h1, h1'⟩
        · rcases hbc with h2 | ⟨h2, h2'⟩
          · left; omega
          · left; omega
        · rcases hbc with h2 | ⟨h2, h2'⟩
          · left; omega
          · right; exact ⟨by omega, ih ys zs h1' h2'⟩

theorem allSome_map {α : Type} (f : α → Option (List Nat)) (l : List α)
    (h : ∀ x ∈ l, (f x).isSome = true) :
    allSome (l.map f) = some (l.filterMap f) := by
  induction l with
  | nil => rfl
  | cons x rest ih =>
    have hx := h x (by simp)
    cases hfx : f x with
    | none => rw [hfx] at hx; simp at hx
    | some y =>
      have hr := ih (fun z hz => h z (by simp [hz]))
      simp [allSome, List.map_cons, hfx, List.filterMap_cons, hr]

theorem natDigitsAux_digits (fuel : Nat) : ∀ n, n < fuel →
    ∀ b ∈ natDigitsAux fuel n, 48 ≤ b ∧ b ≤ 57 := by
  induction fuel with
  | zero => intro n hn; omega
  | succ fuel ih =>
    intro n hn b hb
    simp only [natDigitsAux] at hb
    by_cases h10 : n < 10
    · rw [if_pos h10] at hb
      simp at hb
      omega
    · rw [if_neg h10] at hb
      rcases List.mem_append.mp hb with h1 | h2
      · exact ih (n / 10) (by omega) b h1
      · simp at h2
        omega

theorem showTenth_oneFrac (n : Int) : oneFrac (showTenth n) := by
  have hdig : ∀ b ∈ natStr (n.natAbs / 10), 48 ≤ b ∧ b ≤ 57 :=
    natDigitsAux_digits (n.natAbs / 10 + 1) (n.natAbs / 10) (by omega)
  have hnotin : 46 ∉ natStr (n.natAbs / 10) := by
    intro hmem
    have := hdig 46 hmem
    omega
  by_cases hneg : n < 0
  · refine ⟨45 :: natStr (n.natAbs / 10), 48 + n.natAbs % 10, ?_, by omega, by omega, ?_⟩
    · simp [showTenth, hneg]
    · intro hmem
      rcases List.mem_cons.mp hmem with h | h
      · omega
      · exact hnotin h
  · refine ⟨natStr (n.natAbs / 10), 48 + n.natAbs % 10, ?_, by omega, by omega, hnotin⟩
    simp [showTenth, hneg]

/-- C8: for every final table in which every non-empty bucket carries a
valid-UTF-8 name (the source would otherwise panic), `format_output`
produces `{` ++ the rendered entries joined by `", "` ++ `}`, where the
entries are exactly the renderings of the buckets with `count > 0`
(empty buckets contribute nothing), sorted ascending in byte-wise
lexicographic order on the full rendered string, and every entry has
the shape `name=min/mean/max` with exactly one fractional digit per
number. -/
theorem c8_format_output_spec (backing : List StationData)
    (h : ∀ d ∈ backing, 0 < d.count →
      d.name.isSome = true ∧ utf8Ok (d.name.getD []) = true) :
    ∃ entries, format_output backing =
        some ([123] ++ List.intercalate [44, 32] entries ++ [125]) ∧
      entries.Pairwise (fun a b => bytesLE a b = true) ∧
      entries.Perm ((backing.filter (fun d => 0 < d.count)).filterMap format_data_point) ∧
      ∀ e ∈ entries, ∃ nm a b c, e = nm ++ [61] ++ a ++ [47] ++ b ++ [47] ++ c ∧
        oneFrac a ∧ oneFrac b ∧ oneFrac c := by
  have hf : ∀ d ∈ backing.filter (fun d => 0 < d.count),
      (format_data_point d).isSome = true := by
    intro d hd
    have hdm := List.mem_filter.mp hd
    obtain ⟨h1, h2⟩ := h d hdm.1 (by simpa using hdm.2)
    cases hn : d.name with
    | none => rw [hn] at h1; simp at h1
    | some nm =>
      rw [hn] at h2
      simp only [Option.getD_some] at h2
      simp [format_data_point, hn, h2]
  have hseq := allSome_map format_data_point (backing.filter (fun d => 0 < d.count)) hf
  refine ⟨((backing.filter (fun d => 0 < d.count)).filterMap format_data_point).mergeSort
    bytesLE, ?_, ?_, ?_, ?_⟩
  · simp only [format_output, hseq]
  · exact List.sorted_mergeSort (fun a b c => bytesLE_trans a b c)
      (fun a b => bytesLE_total a b) _
  · exact List.mergeSort_perm _ _
  · intro e he
    rw [List.mem_mergeSort] at he
    obtain ⟨d, hd, he2⟩ := List.mem_filterMap.mp he
    cases hn : d.name with
    | none =>
      rw [show format_data_point d = none by simp [format_data_point, hn]] at he2
      exact absurd he2 (by simp)
    | some nm =>
      by_cases hu : utf8Ok nm = true
      · rw [show format_data_point d = some (nm ++ [61] ++ showTenth d.min_temp ++ [47] ++
          showMean d.total d.count ++ [47] ++ showTenth d.max_temp) by
            simp [format_data_point, hn, hu]] at he2
        have heq : e = nm ++ [61] ++ showTenth d.min_temp ++ [47] ++
            showMean d.total d.count ++ [47] ++ showTenth d.max_temp :=
          (Option.some.inj he2).symm
        exact ⟨nm, showTenth d.min_temp, showMean d.total d.count, showTenth d.max_temp,
          heq, showTenth_oneFrac _, showTenth_oneFrac _, showTenth_oneFrac _⟩
      · rw [show format_data_point d = none by simp [format_data_point, hn, hu]] at he2
        exact absurd he2 (by simp)

/-- Witness for C8 on the concrete two-bucket table `c8Backing`. -/
theorem c8_format_output_spec_witness :
    (∀ d ∈ c8Backing, 0 < d.count →
      d.name.isSome = true ∧ utf8Ok (d.name.getD []) = true) ∧
    ∃ entries, format_output c8Backing =
        some ([123] ++ List.intercalate [44, 32] entries ++ [125]) ∧
      entries.Pairwise (fun a b => bytesLE a b = true) ∧
      entries.Perm ((c8Backing.filter (fun d => 0 < d.count)).filterMap format_data_point) ∧
      ∀ e ∈ entries, ∃ nm a b c, e = nm ++ [61] ++ a ++ [47] ++ b ++ [47] ++ c ∧
        oneFrac a ∧ oneFrac b ∧ oneFrac c :=
  ⟨by decide, c8_format_output_spec c8Backing (by decide)⟩

/-- Witness for C7 at the concrete slice `"-12.3"`. -/
theorem c7_parse_temp_correct_witness :
    (([49, 50] : List Nat).length = 1 ∨ ([49, 50] : List Nat).length = 2) ∧
    parse_temp [45, 49, 50, 46, 51] = some (-123) := by
  have h := c7_parse_temp_correct.1 true [49, 50] 51 (Or.inr rfl)
    (by decide) (by decide) (by decide)
  refine ⟨Or.inr rfl, ?_⟩
  simpa [digitsVal] using h



theorem firstIdxOf_take {t : Nat} {l : List Nat} {i n : Nat} (h : firstIdxOf t l = some i)
    (hn : i < n) : firstIdxOf t (l.take n) = some i := by
  induction l generalizing i n with
  | nil => simp [firstIdxOf] at h
  | cons c rest ih =>
    rw [firstIdxOf_cons] at h
    cases n with
    | zero => omega
    | succ n' =>
      rw [List.take_succ_cons, firstIdxOf_cons]
      by_cases hc : c = t
      · rw [if_pos hc] at h ⊢
        exact h
      · rw [if_neg hc] at h ⊢
        cases hr : firstIdxOf t rest with
        | none => rw [hr] at h; simp at h
        | some j =>
          rw [hr] at h
          simp only [Option.map_some'] at h
          obtain rfl : j + 1 = i := by simpa using h
          rw [ih hr (by omega), Option.map_some']

theorem find_char_some {buf : List Nat} {t i : Nat} (h : firstIdxOf t buf = some i)
    (h48 : i < 48) : find_char buf t = some i := by
  by_cases hlen : 48 ≤ buf.length
  · rw [find_char_ge48 buf t hlen, memchr, firstIdxOf_take h h48]
  · rw [find_char_lt48 buf t (by omega)]
    exact h

theorem find_char_none {buf : List Nat} {t : Nat} (h : firstIdxOf t buf = none) :
    find_char buf t = none := by
  by_cases hlen : 48 ≤ buf.length
  · rw [find_char_ge48 buf t hlen, memchr]
    rw [firstIdxOf_eq_none_iff] at h ⊢
    exact fun hmem => h (List.mem_of_mem_take hmem)
  · rw [find_char_lt48 buf t (by omega)]
    exact h

theorem firstIdxOf_line_nl (nm v R : List Nat)
    (hnm : ∀ b ∈ nm, b ≠ 10) (hv : ∀ b ∈ v, b ≠ 10) :
    firstIdxOf 10 (nm ++ 59 :: (v ++ 10 :: R)) = some (nm.length + 1 + v.length) := by
  have h1 : firstIdxOf 10 nm = none :=
    (firstIdxOf_eq_none_iff _ _).mpr (fun hm => (hnm 10 hm) rfl)
  have h2 : firstIdxOf 10 v = none :=
    (firstIdxOf_eq_none_iff _ _).mpr (fun hm => (hv 10 hm) rfl)
  rw [firstIdxOf_append_right _ h1, firstIdxOf_cons, if_neg (by omega),
    firstIdxOf_append_right _ h2, firstIdxOf_cons, if_pos rfl]
  simp only [Option.map_some', Option.some.injEq]
  omega

theorem firstIdxOf_line_sc (nm Y : List Nat) (hnm : ∀ b ∈ nm, b ≠ 59) :
    firstIdxOf 59 (nm ++ 59 :: Y) = some nm.length := by
  have h1 : firstIdxOf 59 nm = none :=
    (firstIdxOf_eq_none_iff _ _).mpr (fun hm => (hnm 59 hm) rfl)
  rw [firstIdxOf_append_right _ h1, firstIdxOf_cons, if_pos rfl]
  simp

theorem WFline_ne_nil {l : List Nat} (h : WFline l) : l ≠ [] := by
  obtain ⟨nm, v, rfl, _, _⟩ := h
  simp

theorem WFline_length_le {l : List Nat} (h : WFline l) : l.length ≤ 48 := by
  obtain ⟨nm, v, rfl, hnm, hv⟩ := h
  simp only [List.length_append, List.length_cons, List.length_nil]
  obtain ⟨_, h2, _⟩ := hnm
  obtain ⟨_, h4, _⟩ := hv
  simp
  omega

theorem length_le_flatten (L : List (List Nat)) (h : ∀ l ∈ L, l ≠ []) :
    L.length ≤ L.flatten.length := by
  induction L with
  | nil => simp
  | cons l L' ih =>
    have hl := h l (by simp)
    have : 1 ≤ l.length := by
      cases l with
      | nil => exact absurd rfl hl
      | cons _ _ => simp
    simp only [List.flatten_cons, List.length_append, List.length_cons]
    have := ih (fun x hx => h x (by simp [hx]))
    omega

theorem scanLines_ok (L : List (List Nat)) (hL : ∀ l ∈ L, WFline l) (P : List Nat)
    (hP : 10 ∉ P) :
    ∀ (buf : List Nat) (ls : Nat) (m : HMap) (log : List RecEntry) (fuel : Nat),
      buf.drop ls = L.flatten ++ P →
      L.length < fuel →
      ∃ m2 log2, scanLines fuel m log buf ls = .ok (m2, log2, ls + L.flatten.length) := by
  induction L with
  | nil =>
    intro buf ls m log fuel hdrop hfuel
    obtain ⟨f, rfl⟩ : ∃ f, fuel = f + 1 := ⟨fuel - 1, by omega⟩
    have hslice : buf.drop ls = P := by simpa using hdrop
    have hfc : find_char (buf.drop ls) 10 = none := by
      apply find_char_none
      rw [firstIdxOf_eq_none_iff, hslice]
      exact hP
    refine ⟨m, log, ?_⟩
    simp only [scanLines, hfc, List.flatten_nil, List.length_nil, Nat.add_zero]
  | cons l L' ih =>
    intro buf ls m log fuel hdrop hfuel
    obtain ⟨f, rfl⟩ : ∃ f, fuel = f + 1 := ⟨fuel - 1, by omega⟩
    obtain ⟨nm, v, hl, hnm, hv⟩ := hL l (by simp)
    have hslice : buf.drop ls = nm ++ 59 :: (v ++ 10 :: (L'.flatten ++ P)) := by
      rw [hdrop, List.flatten_cons, hl]
      simp [List.append_assoc]
    have hnm10 : ∀ b ∈ nm, b ≠ 10 := fun b hb => (hnm.2.2 b hb).2
    have hnm59 : ∀ b ∈ nm, b ≠ 59 := fun b hb => (hnm.2.2 b hb).1
    have hv10 : ∀ b ∈ v, b ≠ 10 := fun b hb => (hv.2.2 b hb).2
    have hnl : find_char (buf.drop ls) 10 = some (nm.length + 1 + v.length) := by
      apply find_char_some
      · rw [hslice]
        exact firstIdxOf_line_nl nm v _ hnm10 hv10
      · obtain ⟨_, h2, _⟩ := hnm
        obtain ⟨_, h4, _⟩ := hv
        omega
    have hsc : find_char (buf.drop ls) 59 = some nm.length := by
      apply find_char_some
      · rw [hslice]
        exact firstIdxOf_line_sc nm _ hnm59
      · obtain ⟨_, h2, _⟩ := hnm
        omega
    have hname : (buf.drop ls).take nm.length = nm := by
      rw [hslice, ← List.take_left nm (59 :: (v ++ 10 :: (L'.flatten ++ P)))]
      rw [List.take_left]
    have htemp : ((buf.drop ls).drop (nm.length + 1)).take
        (nm.length + 1 + v.length - (nm.length + 1)) = v := by
      have hd : (buf.drop ls).drop (nm.length + 1) = v ++ 10 :: (L'.flatten ++ P) := by
        rw [hslice]
        have : nm.length + 1 = (nm ++ [59]).length := by simp
        rw [this]
        have he : nm ++ 59 :: (v ++ 10 :: (L'.flatten ++ P)) =
            (nm ++ [59]) ++ (v ++ 10 :: (L'.flatten ++ P)) := by
          simp [List.append_assoc]
        rw [he, List.drop_left]
      rw [hd]
      have : nm.length + 1 + v.length - (nm.length + 1) = v.length := by omega
      rw [this, List.take_left]
    obtain ⟨c0, v', hv'⟩ : ∃ c0 v', v = c0 :: v' := by
      cases v with
      | nil => exact absurd hv.1 (by simp)
      | cons c0 v' => exact ⟨c0, v', rfl⟩
    have hparse : ∃ tv, parse_temp v = some tv := by
      rw [hv']
      exact ⟨_, rfl⟩
    obtain ⟨tv, htv⟩ := hparse
    have hmapAdd : ∃ m2, mapAdd m nm tv = some m2 := by
      have h3 : 3 ≤ nm.length := hnm.1
      rw [mapAdd, get_index, get_u64_key, if_pos h3]
      exact ⟨_, rfl⟩
    obtain ⟨m2, hm2⟩ := hmapAdd
    have hdrop2 : buf.drop (ls + (nm.length + 1 + v.length) + 1) = L'.flatten ++ P := by
      have h1 : ls + (nm.length + 1 + v.length) + 1 = ls + l.length := by
        rw [hl]
        simp
        omega
      rw [h1, ← List.drop_drop, hdrop, List.flatten_cons, List.append_assoc, List.drop_left]
    obtain ⟨m3, log3, hrec⟩ := ih (fun x hx => hL x (by simp [hx])) buf
      (ls + (nm.length + 1 + v.length) + 1) m2 (log ++ [(nm, tv)]) f hdrop2 (by simp at hfuel; omega)
    refine ⟨m3, log3, ?_⟩
    rw [scanLines]
    simp only [hnl, hsc]
    rw [if_pos (by omega)]
    simp only [hname, htemp, htv, hm2, hrec]
    have : ls + (nm.length + 1 + v.length) + 1 + L'.flatten.length =
        ls + (l :: L').flatten.length := by
      rw [List.flatten_cons, List.length_append, hl]
      simp
      omega
    rw [← this]

theorem flatten_take_decomp (L : List (List Nat)) (hL : ∀ l ∈ L, WFline l) (n : Nat) :
    ∃ L1 L2 P, L = L1 ++ L2 ∧ L.flatten.take n = L1.flatten ++ P ∧ 10 ∉ P ∧
      (L ≠ [] → (L.headD []).length ≤ n → L1 ≠ []) := by
  induction L generalizing n with
  | nil => exact ⟨[], [], [], rfl, by simp, by simp, by simp⟩
  | cons l L' ih =>
    by_cases hn : l.length ≤ n
    · obtain ⟨L1', L2', P, hsplit, htake, hP, _⟩ :=
        ih (fun x hx => hL x (by simp [hx])) (n - l.length)
      refine ⟨l :: L1', L2', P, by rw [hsplit, List.cons_append], ?_, hP, by simp⟩
      rw [List.flatten_cons, List.flatten_cons]
      have hn' : n = l.length + (n - l.length) := by omega
      rw [hn', List.take_append, htake]
      simp [List.append_assoc]
    · refine ⟨[], l :: L', l.take n, rfl, ?_, ?_, ?_⟩
      · rw [List.flatten_cons, List.take_append_eq_append_take,
          show n - l.length = 0 by omega]
        simp
      · obtain ⟨nm, v, hl, hnm, hv⟩ := hL l (by simp)
        intro hmem
        have hmem2 : (10 : Nat) ∈ (nm ++ 59 :: v).take n := by
          have he : l.take n = (nm ++ 59 :: v).take n := by
            rw [hl]
            have hlen : n ≤ (nm ++ 59 :: v).length := by
              have h1 : l.length = nm.length + v.length + 2 := by
                rw [hl]
                simp only [List.length_append, List.length_cons, List.length_nil]
                omega
              have h2 : (nm ++ 59 :: v).length = nm.length + v.length + 1 := by
                simp only [List.length_append, List.length_cons, List.length_nil]
                omega
              omega
            rw [show nm ++ 59 :: (v ++ [10]) = (nm ++ 59 :: v) ++ [10] by
              simp [List.append_assoc]]
            rw [List.take_append_eq_append_take, show n - (nm ++ 59 :: v).length = 0 by omega]
            simp
          rw [← he]
          exact hmem
        have hmem3 : (10 : Nat) ∈ nm ++ 59 :: v := List.mem_of_mem_take hmem2
        rcases List.mem_append.mp hmem3 with h1 | h2
        · exact (hnm.2.2 10 h1).2 rfl
        · rcases List.mem_cons.mp h2 with h3 | h4
          · omega
          · exact (hv.2.2 10 h4).2 rfl
      · intro _ hlen
        simp only [List.headD_cons] at hlen
        omega

theorem scanSeg_ok (file : List Nat) (endPos : Nat) (hend : endPos ≤ file.length) :
    ∀ (fuel offset : Nat) (m : HMap) (log : List RecEntry),
      WFtail (file.drop offset) →
      0 < fuel →
      endPos + 1 ≤ fuel + offset →
      ∃ m2 log2, scanSeg file fuel m log offset endPos = .ok (m2, log2) := by
  intro fuel
  induction fuel with
  | zero => omega
  | succ f ih =>
    intro offset m log hWF _ hfuel
    obtain ⟨L, hLwf, hflat⟩ := hWF
    obtain ⟨L1, L2, P, hsplit, htake, hP, hprog⟩ :=
      flatten_take_decomp L hLwf BUF_SIZE
    have hbuf : (file.drop offset).take BUF_SIZE = L1.flatten ++ P := by
      rw [hflat, htake]
    have hL1wf : ∀ l ∈ L1, WFline l := fun l hl => hLwf l (by rw [hsplit]; simp [hl])
    have hL1len : L1.length < ((file.drop offset).take BUF_SIZE).length + 1 := by
      have h1 : L1.length ≤ L1.flatten.length :=
        length_le_flatten L1 (fun l hl => WFline_ne_nil (hL1wf l hl))
      have h2 : L1.flatten.length ≤ ((file.drop offset).take BUF_SIZE).length := by
        rw [hbuf]
        simp
      omega
    obtain ⟨m2, log2, hlines⟩ := scanLines_ok L1 hL1wf P hP
      ((file.drop offset).take BUF_SIZE) 0 m log
      (((file.drop offset).take BUF_SIZE).length + 1) (by simpa using hbuf) hL1len
    by_cases hstop : endPos ≤ offset + L1.flatten.length
    · refine ⟨m2, log2, ?_⟩
      rw [scanSeg]
      simp only [hlines, Nat.zero_add]
      rw [if_pos hstop]
    · have hoff_lt : offset < endPos := by omega
      have hLne : L ≠ [] := by
        intro hLnil
        rw [hLnil] at hflat
        simp only [List.flatten_nil] at hflat
        have := List.drop_eq_nil_iff.mp hflat
        omega
      have hL1ne : L1 ≠ [] := by
        apply hprog hLne
        obtain ⟨l0, L0, rfl⟩ : ∃ l0 L0, L = l0 :: L0 := by
          cases L with
          | nil => exact absurd rfl hLne
          | cons a b => exact ⟨a, b, rfl⟩
        simp only [List.headD_cons]
        have := WFline_length_le (hLwf l0 (by simp))
        simp only [BUF_SIZE]
        omega
      have hL1pos : 1 ≤ L1.flatten.length := by
        obtain ⟨l1, L1', rfl⟩ : ∃ l1 L1', L1 = l1 :: L1' := by
          cases L1 with
          | nil => exact absurd rfl hL1ne
          | cons a b => exact ⟨a, b, rfl⟩
        have hne := WFline_ne_nil (hL1wf l1 (by simp))
        rw [List.flatten_cons, List.length_append]
        cases l1 with
        | nil => exact absurd rfl hne
        | cons a b =>
          simp only [List.length_cons]
          omega
      have hWF2 : WFtail (file.drop (offset + L1.flatten.length)) := by
        refine ⟨L2, fun x hx => hLwf x (by rw [hsplit]; simp [hx]), ?_⟩
        rw [← List.drop_drop, hflat, hsplit, List.flatten_append, List.drop_left]
      obtain ⟨m3, log3, hrec⟩ := ih (offset + L1.flatten.length) m2 log2 hWF2
        (by omega) (by omega)
      refine ⟨m3, log3, ?_⟩
      rw [scanSeg]
      simp only [hlines, Nat.zero_add]
      rw [if_neg hstop]
      exact hrec

/-- C3 (amended): for every file whose suffix at the (line-aligned)
segment start is a concatenation of well-formed records — names 3 to 41
bytes, values 1 to 5 bytes, so every line fits in the 48 bytes the
fast-path scanner inspects and the fingerprint precondition holds — and
every segment end not exceeding the file length, the per-segment scan
loop terminates without panicking (it returns a table and its
absorption log). -/
theorem c3_scan_terminates (file : List Nat) (startPos endPos : Nat)
    (hWF : WFtail (file.drop startPos)) (hend : endPos ≤ file.length) :
    ∃ m2 log2, scan_file_segment file startPos endPos = .ok (m2, log2) := by
  rw [scan_file_segment]
  exact scanSeg_ok file endPos hend (endPos - startPos + 1) startPos HMap.empty [] hWF
    (by omega) (by omega)


/-- Witness for C3 on the single-record file `"a00;1.0\n"` scanned as
the full segment `(0, 8)`. -/
theorem c3_scan_terminates_witness :
    (WFtail (c3Seg.drop 0) ∧ 8 ≤ c3Seg.length) ∧
    ∃ m2 log2, scan_file_segment c3Seg 0 8 = .ok (m2, log2) := by
  have hW : WFtail (c3Seg.drop 0) := by
    refine ⟨[c3Seg], ?_, ?_⟩
    · intro x hx
      simp only [List.mem_singleton] at hx
      subst hx
      refine ⟨[97, 48, 48], [49, 46, 48], by decide, ?_, ?_⟩
      · exact ⟨by decide, by decide, by decide⟩
      · exact ⟨by decide, by decide, by decide⟩
    · decide
  refine ⟨⟨hW, by decide⟩, c3_scan_terminates c3Seg 0 8 hW (by decide)⟩

end OneBrc
